/-
Verification of the c-hashmap table engine (src/hashmap/hashmap.c, the
"raw-bytes with pluggable strategies" revision) against its natural-language
specification.

Shallow embedding notes:
- `size_t` arithmetic is modeled with `Nat`; the djb2 hash takes its values
  modulo 2^64 exactly where the C computation wraps.
- The C `float` load-balance thresholds (0.25f / 0.75f) and the comparison
  `(float)count / capacity <op> threshold` are modeled in exact rational
  arithmetic; 0.25 and 0.75 are exactly representable floats, and on every
  concrete state used below the float comparison agrees with the rational one.
- Allocation failure (malloc/calloc returning NULL) is modeled by explicit
  Boolean oracles passed to the operations that allocate.
- `void*` key/value payloads are modeled generically: the table is
  parameterized over key and value types, and the four strategy functions
  (hash, compare, alloc-copy for keys and values) are fields of the table,
  exactly as the C stores function pointers.  Each strategy receives the
  corresponding size field, as in the C calls.
- `hashmap_get` returns `Option` in place of value-pointer-or-NULL; stored
  value pointers are never NULL in the C (node_create fails on a NULL copy),
  so the two are in bijection.
-/
import Mathlib

namespace CHashmap

/-- One chain node: `node_t` holds a key pointer, a value pointer and the next
link; the chain itself is modeled as a `List`. -/
structure Node (κ ν : Type) where
  key : κ
  value : ν
deriving DecidableEq, Repr

/-- `struct _hashmap_t`: capacity, key/value sizes, count, the two load-balance
thresholds, the strategy functions, and the bucket table. -/
structure Hashmap (κ ν : Type) where
  capacity : Nat
  keySize : Nat
  valueSize : Nat
  count : Nat
  thresholdMin : ℚ
  thresholdMax : ℚ
  fnHash : κ → Nat → Nat
  fnCompare : κ → κ → Nat → Bool
  fnAllocCopyKey : κ → Nat → Option κ
  fnAllocCopyValue : ν → Nat → Option ν
  table : List (List (Node κ ν))

/-- `#define HASHMAP_DEFAULT_CAPACITY 16` -/
def HASHMAP_DEFAULT_CAPACITY : Nat := 16

/-- `#define HASHMAP_MINIMAL_CAPACITY 2` -/
def HASHMAP_MINIMAL_CAPACITY : Nat := 2

/-- `#define HASHMAP_DEFAULT_LOAD_BALANCE_THRESHOLD_MAX 0.75f` (0.75 is an
exactly representable float; `mkRat 3 4 = 3/4`). -/
def HASHMAP_DEFAULT_LOAD_BALANCE_THRESHOLD_MAX : ℚ := mkRat 3 4

/-- `#define HASHMAP_DEFAULT_LOAD_BALANCE_THRESHOLD_MIN 0.25f` (0.25 is an
exactly representable float; `mkRat 1 4 = 1/4`). -/
def HASHMAP_DEFAULT_LOAD_BALANCE_THRESHOLD_MIN : ℚ := mkRat 1 4

/-- The load balance `(float)count / capacity`, modeled exactly:
`mkRat count capacity` is the rational `count / capacity` (capacity is never
zero).  On every state appearing in this development the C float division is
exact, so the float comparisons agree with the rational ones. -/
def loadBalance (count capacity : Nat) : ℚ := mkRat count capacity

/-- 2^64, the modulus of `size_t` arithmetic. -/
def SIZE_T_MOD : Nat := 2 ^ 64

/-- The value of a byte read through `char*` on the reference platform
(signed char): bytes ≥ 128 read as negative. -/
def charVal (b : Nat) : Int := if b < 128 then (b : Int) else (b : Int) - 256

/-- One iteration of the djb2 loop body:
`hash = ((hash << 5) + hash) + *str`, i.e. `hash * 33 + c` in `size_t`
arithmetic with the (possibly negative) char value `c` wrapping mod 2^64. -/
def djb2_step (hash : Nat) (b : Nat) : Nat :=
  (((33 * hash : Int) + charVal b) % (SIZE_T_MOD : Int)).toNat

/-- The `while(*str) hash = ((hash << 5) + hash) + *str++;` loop: walks the
byte buffer and stops at the first zero byte. -/
def djb2_loop : Nat → List Nat → Nat
  | hash, [] => hash
  | hash, b :: rest => if b = 0 then hash else djb2_loop (djb2_step hash b) rest

/-- `hashmap_fn_hash_djb2`: seed 5381, `size` is explicitly unused
(`(void)size`). -/
def hashmap_fn_hash_djb2 (key : List Nat) (size : Nat) : Nat :=
  djb2_loop 5381 key

/-- `memcmp(a, b, size) == 0`: the default compare strategy succeeds exactly
when the first `size` bytes agree. -/
def memcmpEq (a b : List Nat) (size : Nat) : Bool :=
  a.take size == b.take size

/-- `default_fn_alloc_copy`: `malloc(size)` + `memcpy(copy, element, size)`;
the copy holds exactly the first `size` bytes of the source buffer.  The
allocation-failure branch is exercised through the oracle at the call sites
that can observe it. -/
def default_fn_alloc_copy (element : List Nat) (size : Nat) : Option (List Nat) :=
  some (element.take size)

/-- `hashmap_create` (success path): capacity 0 is replaced by the default
capacity, capacities below the minimum are clamped up, a NULL hash function
selects djb2, the remaining strategies get their documented defaults, and the
bucket table is calloc-zeroed (all chains empty). -/
def hashmap_create (initial_capacity : Nat) (hash_fn : Option (List Nat → Nat → Nat))
    (key_size value_size : Nat) : Hashmap (List Nat) (List Nat) :=
  let cap1 := if initial_capacity = 0 then HASHMAP_DEFAULT_CAPACITY else initial_capacity
  let cap2 := if cap1 < HASHMAP_MINIMAL_CAPACITY then HASHMAP_MINIMAL_CAPACITY else cap1
  { capacity := cap2
    keySize := key_size
    valueSize := value_size
    count := 0
    thresholdMin := HASHMAP_DEFAULT_LOAD_BALANCE_THRESHOLD_MIN
    thresholdMax := HASHMAP_DEFAULT_LOAD_BALANCE_THRESHOLD_MAX
    fnHash := hash_fn.getD hashmap_fn_hash_djb2
    fnCompare := memcmpEq
    fnAllocCopyKey := default_fn_alloc_copy
    fnAllocCopyValue := default_fn_alloc_copy
    table := List.replicate cap2 [] }

variable {κ ν : Type}

/-- The chain stored at bucket `i` (empty when out of range; every access in
the C is in range). -/
def bucket (hm : Hashmap κ ν) (i : Nat) : List (Node κ ν) :=
  hm.table.getD i []

/-- All live nodes, in bucket order then chain order. -/
def allNodes (hm : Hashmap κ ν) : List (Node κ ν) :=
  hm.table.flatten

/-- The test `fn_compare(key, node->key, key_size) == 0` applied to a node. -/
def keyMatch (hm : Hashmap κ ν) (key : κ) (n : Node κ ν) : Bool :=
  hm.fnCompare key n.key hm.keySize

/-- Whether some live node's key compares equal to `key` under the table's
equality strategy. -/
def containsKey (hm : Hashmap κ ν) (key : κ) : Bool :=
  (allNodes hm).any (keyMatch hm key)

/-- `hashmap_get`: hash the key, take the chain at `hash % capacity`, return
the value of the first node whose key compares equal, else NULL/none. -/
def hashmap_get (hm : Hashmap κ ν) (key : κ) : Option ν :=
  let index := hm.fnHash key hm.keySize % hm.capacity
  ((bucket hm index).find? (keyMatch hm key)).map Node.value

/-- `get_auto_growth_new_capacity`: `capacity + (capacity >> 1)` (+50%). -/
def get_auto_growth_new_capacity (hm : Hashmap κ ν) : Nat :=
  hm.capacity + hm.capacity / 2

/-- `get_auto_shrink_new_capacity`: `capacity >> 1` (−50%). -/
def get_auto_shrink_new_capacity (hm : Hashmap κ ν) : Nat :=
  hm.capacity / 2

/-- Prepend `n` into chain `i` of table `t`
(`node->next = table[i]; table[i] = node;`). -/
def prependAt (t : List (List (Node κ ν))) (i : Nat) (n : Node κ ν) :
    List (List (Node κ ν)) :=
  t.set i (n :: t.getD i [])

/-- `resize`: clamp the target capacity to the minimum, calloc the new table
(on failure, perror and return with the map untouched), then walk every chain
of the old table front to back, prepending each node into the chain at
`hash(key) % new_capacity` of the new table, and install the new table and
capacity. -/
def resize (allocOk : Bool) (hm : Hashmap κ ν) (new_capacity : Nat) : Hashmap κ ν :=
  let cap := if new_capacity < HASHMAP_MINIMAL_CAPACITY then HASHMAP_MINIMAL_CAPACITY
             else new_capacity
  if allocOk then
    let base : List (List (Node κ ν)) := List.replicate cap []
    let newTable := hm.table.foldl
      (fun nt chain => chain.foldl
        (fun nt n => prependAt nt (hm.fnHash n.key hm.keySize % cap) n) nt) base
    { hm with capacity := cap, table := newTable }
  else hm

/-- `auto_grow`: resize to +50% when `(float)count / capacity` exceeds the max
threshold. -/
def auto_grow (allocOk : Bool) (hm : Hashmap κ ν) : Hashmap κ ν :=
  if loadBalance hm.count hm.capacity > hm.thresholdMax then
    resize allocOk hm (get_auto_growth_new_capacity hm)
  else hm

/-- `auto_shrink`: resize to −50% when `(float)count / capacity` drops below
the min threshold. -/
def auto_shrink (allocOk : Bool) (hm : Hashmap κ ν) : Hashmap κ ν :=
  if loadBalance hm.count hm.capacity < hm.thresholdMin then
    resize allocOk hm (get_auto_shrink_new_capacity hm)
  else hm

/-- `node_create`: malloc the node (oracle `mallocOk`), copy the key, then the
value, through the table's copy strategies; any failure yields NULL with the
partial allocations released. -/
def node_create (mallocOk : Bool) (hm : Hashmap κ ν) (key : κ) (value : ν) :
    Option (Node κ ν) :=
  if mallocOk then
    match hm.fnAllocCopyKey key hm.keySize with
    | none => none
    | some k =>
      match hm.fnAllocCopyValue value hm.valueSize with
      | none => none
      | some v => some { key := k, value := v }
  else none

/-- `hashmap_add`: a `get` first enforces uniqueness (an existing value is
returned unmodified); otherwise count is incremented, the grow policy runs,
the bucket index is computed under the possibly-new capacity, the node is
created (on failure count is rolled back and NULL returned), and the node is
prepended to its chain.  Returns the updated map and the C return value. -/
def hashmap_add (resizeOk mallocOk : Bool) (hm : Hashmap κ ν) (key : κ) (value : ν) :
    Hashmap κ ν × Option ν :=
  match hashmap_get hm key with
  | some existing_value => (hm, some existing_value)
  | none =>
    let hm1 := auto_grow resizeOk { hm with count := hm.count + 1 }
    let index := hm1.fnHash key hm1.keySize % hm1.capacity
    match node_create mallocOk hm1 key value with
    | none => ({ hm1 with count := hm1.count - 1 }, none)
    | some node =>
      ({ hm1 with table := prependAt hm1.table index node }, some node.value)

/-- The chain walk of `hashmap_remove`: unlink the first node whose key
compares equal (updating the head or the previous link), or report that none
was found. -/
def chainRemoveFirst (hm : Hashmap κ ν) (key : κ) :
    List (Node κ ν) → Option (List (Node κ ν))
  | [] => none
  | n :: rest =>
    if keyMatch hm key n then some rest
    else (chainRemoveFirst hm key rest).map (fun r => n :: r)

/-- `hashmap_remove`: search the chain at `hash % capacity`; when a node is
found it is unlinked and destroyed, count is decremented and the shrink policy
runs, returning true; otherwise false. -/
def hashmap_remove (resizeOk : Bool) (hm : Hashmap κ ν) (key : κ) :
    Hashmap κ ν × Bool :=
  let index := hm.fnHash key hm.keySize % hm.capacity
  match chainRemoveFirst hm key (bucket hm index) with
  | none => (hm, false)
  | some chain2 =>
    (auto_shrink resizeOk
      { hm with table := hm.table.set index chain2, count := hm.count - 1 }, true)

/-- `hashmap_count`. -/
def hashmap_count (hm : Hashmap κ ν) : Nat := hm.count

/-- `hashmap_capacity`. -/
def hashmap_capacity (hm : Hashmap κ ν) : Nat := hm.capacity

/-- The double loop of `resize`, flattened: prepend each node, in table order,
into its new chain. -/
def rehashFold (f : Node κ ν → Nat) (nodes : List (Node κ ν))
    (t : List (List (Node κ ν))) : List (List (Node κ ν)) :=
  nodes.foldl (fun nt n => prependAt nt (f n) n) t

/-- Modelled from the spec, for comparison with the implemented djb2 only:
the claimed fold `hash = hash*33 + byte` (seed 5381, wrapping mod 2^64) over
*all* `key_size` bytes of a fixed-width key. -/
def djb2_spec_all_bytes (key : List Nat) (size : Nat) : Nat :=
  (key.take size).foldl (fun h b => (h * 33 + b) % SIZE_T_MOD) 5381

/-- The spec's concrete scenario, step 0: a table created with capacity 2,
default strategies (djb2 hash, memcmp compare, memcpy copies), 1-byte keys
and values. -/
def c8_m0 : Hashmap (List Nat) (List Nat) := hashmap_create 2 none 1 1

/-- Scenario after adding the 1st distinct key `[1] ↦ [10]`. -/
def c8_s1 : Hashmap (List Nat) (List Nat) × Option (List Nat) :=
  hashmap_add true true c8_m0 [1] [10]

/-- Scenario after adding the 2nd distinct key `[2] ↦ [11]`. -/
def c8_s2 : Hashmap (List Nat) (List Nat) × Option (List Nat) :=
  hashmap_add true true c8_s1.1 [2] [11]

/-- Scenario after adding the 3rd distinct key `[3] ↦ [12]`. -/
def c8_s3 : Hashmap (List Nat) (List Nat) × Option (List Nat) :=
  hashmap_add true true c8_s2.1 [3] [12]

/-- Scenario after removing the first of the three keys. -/
def c8_r1 : Hashmap (List Nat) (List Nat) × Bool :=
  hashmap_remove true c8_s3.1 [1]

/-- Scenario after removing the second of the three keys. -/
def c8_r2 : Hashmap (List Nat) (List Nat) × Bool :=
  hashmap_remove true c8_r1.1 [2]

/-! ### Memory-level model for the copy semantics of `add`/`get`

The round-trip property talks about mutation of the caller's buffers after
`add`, so pointers must be explicit: a heap maps addresses to byte buffers,
and the default strategies (memcmp equality, malloc+memcpy copies) are
modeled at that level.  The hash strategy stays a parameter reading the
pointed-to bytes, as the C hash functions only dereference their argument.
Allocation succeeds in this model (failure is analyzed in the value-level
model); addresses at or above `next` are unallocated. -/

/-- A byte heap: buffer contents per address, plus the next fresh address. -/
structure Heap where
  contents : Nat → List Nat
  next : Nat

/-- `malloc(size)` + `memcpy(copy, element, size)` — `default_fn_alloc_copy`
at memory level: a fresh address now holding the first `size` bytes of the
source buffer. -/
def heap_alloc_copy (h : Heap) (src : Nat) (size : Nat) : Heap × Nat :=
  ({ contents := Function.update h.contents h.next ((h.contents src).take size)
     next := h.next + 1 }, h.next)

/-- A store through a caller-held pointer — the "mutation of the caller's
original buffer" of the round-trip property. -/
def heap_write (h : Heap) (a : Nat) (buf : List Nat) : Heap :=
  { h with contents := Function.update h.contents a buf }

/-- `memcmp(a, b, size) == 0` read through the heap. -/
def memEq (h : Heap) (a b : Nat) (size : Nat) : Bool :=
  (h.contents a).take size == (h.contents b).take size

/-- `node_t` at memory level: the two owned pointers. -/
structure NodeH where
  keyA : Nat
  valueA : Nat
deriving DecidableEq, Repr

/-- `struct _hashmap_t` at memory level, default compare/copy strategies
inlined. -/
structure HashmapH where
  capacity : Nat
  keySize : Nat
  valueSize : Nat
  count : Nat
  thresholdMin : ℚ
  thresholdMax : ℚ
  fnHash : List Nat → Nat → Nat
  table : List (List NodeH)

/-- The chain at bucket `i`. -/
def bucketH (hm : HashmapH) (i : Nat) : List NodeH :=
  hm.table.getD i []

/-- `hashmap_get` at memory level: returns the stored value *pointer* (the C
returns `current->value`). -/
def hashmap_getm (h : Heap) (hm : HashmapH) (keyA : Nat) : Option Nat :=
  let index := hm.fnHash (h.contents keyA) hm.keySize % hm.capacity
  ((bucketH hm index).find? (fun n => memEq h keyA n.keyA hm.keySize)).map NodeH.valueA

/-- `node->next = table[i]; table[i] = node;` at memory level. -/
def prependAtH (t : List (List NodeH)) (i : Nat) (n : NodeH) : List (List NodeH) :=
  t.set i (n :: t.getD i [])

/-- `resize` at memory level (successful allocation): relink every node into
the chain at `hash(key) mod new_capacity`. -/
def resizem (h : Heap) (hm : HashmapH) (new_capacity : Nat) : HashmapH :=
  let cap := if new_capacity < HASHMAP_MINIMAL_CAPACITY then HASHMAP_MINIMAL_CAPACITY
             else new_capacity
  let base : List (List NodeH) := List.replicate cap []
  let newTable := hm.table.foldl
    (fun nt chain => chain.foldl
      (fun nt n => prependAtH nt (hm.fnHash (h.contents n.keyA) hm.keySize % cap) n) nt)
    base
  { hm with capacity := cap, table := newTable }

/-- `auto_grow` at memory level. -/
def auto_growm (h : Heap) (hm : HashmapH) : HashmapH :=
  if loadBalance hm.count hm.capacity > hm.thresholdMax then
    resizem h hm (hm.capacity + hm.capacity / 2)
  else hm

/-- `node_create` at memory level (default copy strategies, allocation
succeeding): copy the key buffer, then the value buffer, into fresh
addresses. -/
def node_createm (h : Heap) (hm : HashmapH) (keyA valueA : Nat) : Heap × NodeH :=
  let r1 := heap_alloc_copy h keyA hm.keySize
  let r2 := heap_alloc_copy r1.1 valueA hm.valueSize
  (r2.1, { keyA := r1.2, valueA := r2.2 })

/-- `hashmap_add` at memory level: uniqueness check by `get`, count bump,
grow policy, index under the possibly-new capacity, node creation by copying
both buffers, prepend into the chain; returns the new heap, the new table
state and the C return value (a pointer to the stored value). -/
def hashmap_addm (h : Heap) (hm : HashmapH) (keyA valueA : Nat) :
    Heap × HashmapH × Option Nat :=
  match hashmap_getm h hm keyA with
  | some existing_value => (h, hm, some existing_value)
  | none =>
    let hm1 := auto_growm h { hm with count := hm.count + 1 }
    let index := hm1.fnHash (h.contents keyA) hm1.keySize % hm1.capacity
    let r := node_createm h hm1 keyA valueA
    (r.1, { hm1 with table := prependAtH hm1.table index r.2 }, some r.2.valueA)

/-- Concrete memory-level scenario: a heap holding the caller's key buffer
`[7]` at address 0 and value buffer `[9]` at address 1, and an empty
two-bucket table with 1-byte keys and values hashed by their first byte. -/
def heap0 : Heap :=
  { contents := fun a => if a = 0 then [7] else if a = 1 then [9] else []
    next := 2 }

/-- The empty memory-level table of the concrete scenario. -/
def hmH0 : HashmapH :=
  { capacity := 2
    keySize := 1
    valueSize := 1
    count := 0
    thresholdMin := HASHMAP_DEFAULT_LOAD_BALANCE_THRESHOLD_MIN
    thresholdMax := HASHMAP_DEFAULT_LOAD_BALANCE_THRESHOLD_MAX
    fnHash := fun b _ => b.headD 0
    table := [[], []] }

/-- A tiny concrete table over native-word (`Nat`) keys and values, used to
instantiate the general theorems: identity hash (`hashmap_fn_hash_id` on
`size_t` keys), Boolean-equality compare, identity copy strategies, default
thresholds; capacity 2 with the single binding 0 ↦ 10. -/
def natHm : Hashmap Nat Nat :=
  { capacity := 2
    keySize := 8
    valueSize := 8
    count := 1
    thresholdMin := HASHMAP_DEFAULT_LOAD_BALANCE_THRESHOLD_MIN
    thresholdMax := HASHMAP_DEFAULT_LOAD_BALANCE_THRESHOLD_MAX
    fnHash := fun k _ => k
    fnCompare := fun a b _ => a == b
    fnAllocCopyKey := fun x _ => some x
    fnAllocCopyValue := fun x _ => some x
    table := [[{ key := 0, value := 10 }], []] }

/-- Structural invariant maintained by the table engine: the bucket array has
`capacity` chains, the capacity respects the floor, every node sits in the
chain selected by `hash(key) mod capacity`, and at most one live node matches
any query key (uniqueness is enforced at insertion). -/
def Inv (hm : Hashmap κ ν) : Prop :=
  hm.table.length = hm.capacity ∧
  HASHMAP_MINIMAL_CAPACITY ≤ hm.capacity ∧
  (∀ i, i < hm.table.length → ∀ n ∈ bucket hm i,
    hm.fnHash n.key hm.keySize % hm.capacity = i) ∧
  (∀ k, (allNodes hm).countP (keyMatch hm k) ≤ 1)

/-- Coherence of the equality and hash strategies, as the contract assumes of
any strategy set (the defaults satisfy it for exact-width buffers): the
compare relation is symmetric and transitive, and compare-equal keys hash
alike. -/
def EqOk (hm : Hashmap κ ν) : Prop :=
  (∀ a b, hm.fnCompare a b hm.keySize = hm.fnCompare b a hm.keySize) ∧
  (∀ a b c, hm.fnCompare a b hm.keySize = true → hm.fnCompare b c hm.keySize = true →
    hm.fnCompare a c hm.keySize = true) ∧
  (∀ a b, hm.fnCompare a b hm.keySize = true →
    hm.fnHash a hm.keySize = hm.fnHash b hm.keySize)

theorem mem_allNodes_of_mem_bucket {hm : Hashmap κ ν} {i : Nat} {n : Node κ ν}
    (h : n ∈ bucket hm i) : n ∈ allNodes hm := by
  rcases Nat.lt_or_ge i hm.table.length with hi | hi
  · exact List.mem_flatten.mpr ⟨bucket hm i, by
      simpa [bucket, List.getD_eq_getElem?_getD, List.getElem?_eq_getElem hi]
        using List.getElem_mem hi, h⟩
  · simp [bucket, List.getD_eq_getElem?_getD, List.getElem?_eq_none hi] at h

theorem exists_bucket_of_mem_allNodes {hm : Hashmap κ ν} {n : Node κ ν}
    (h : n ∈ allNodes hm) :
    ∃ i, i < hm.table.length ∧ n ∈ bucket hm i := by
  rcases List.mem_flatten.mp h with ⟨chain, hchain, hn⟩
  rcases List.mem_iff_getElem.mp hchain with ⟨i, hi, rfl⟩
  exact ⟨i, hi, by
    simpa [bucket, List.getD_eq_getElem?_getD, List.getElem?_eq_getElem hi] using hn⟩

theorem get_eq_none_of_not_contains {hm : Hashmap κ ν} {k : κ}
    (h : containsKey hm k = false) : hashmap_get hm k = none := by
  simp only [hashmap_get]
  rw [Option.map_eq_none', List.find?_eq_none]
  intro n hn
  have hmem : n ∈ allNodes hm := mem_allNodes_of_mem_bucket hn
  have := (List.any_eq_false).mp (by simpa [containsKey] using h) n hmem
  simpa using this

theorem exists_match_of_get_some {hm : Hashmap κ ν} {k : κ} {v : ν}
    (h : hashmap_get hm k = some v) :
    ∃ n ∈ allNodes hm, keyMatch hm k n = true ∧ n.value = v := by
  unfold hashmap_get at h
  rcases Option.map_eq_some.mp h with ⟨n, hfind, hval⟩
  exact ⟨n, mem_allNodes_of_mem_bucket (List.mem_of_find?_eq_some hfind),
    List.find?_some hfind, hval⟩

/-- A list of length at most one has at most one member. -/
theorem eq_of_mem_length_le_one {α : Type} {l : List α} {a b : α}
    (hl : l.length ≤ 1) (ha : a ∈ l) (hb : b ∈ l) : a = b := by
  match l with
  | [] => cases ha
  | [x] =>
    rcases List.mem_singleton.mp ha with rfl
    exact (List.mem_singleton.mp hb).symm
  | x :: y :: rest => simp at hl

/-- Uniqueness: two live nodes matching the same query key are equal. -/
theorem match_unique {hm : Hashmap κ ν} (hInv : Inv hm) {k : κ} {a b : Node κ ν}
    (ha : a ∈ allNodes hm) (hb : b ∈ allNodes hm)
    (hka : keyMatch hm k a = true) (hkb : keyMatch hm k b = true) : a = b := by
  have hcount := hInv.2.2.2 k
  rw [List.countP_eq_length_filter] at hcount
  exact eq_of_mem_length_le_one hcount
    (List.mem_filter.mpr ⟨ha, hka⟩) (List.mem_filter.mpr ⟨hb, hkb⟩)

/-- If a live node matches the query key, `get` finds it and returns its
value. -/
theorem get_eq_some_of_mem {hm : Hashmap κ ν} (hInv : Inv hm) (hEq : EqOk hm)
    {k : κ} {n : Node κ ν} (hn : n ∈ allNodes hm) (hk : keyMatch hm k n = true) :
    hashmap_get hm k = some n.value := by
  rcases exists_bucket_of_mem_allNodes hn with ⟨j, hj, hnj⟩
  have hidx : hm.fnHash n.key hm.keySize % hm.capacity = j := hInv.2.2.1 j hj n hnj
  have hhash : hm.fnHash k hm.keySize = hm.fnHash n.key hm.keySize :=
    hEq.2.2 k n.key hk
  have hfind : ∃ m, (bucket hm j).find? (keyMatch hm k) = some m := by
    rcases List.find?_isSome.mpr ⟨n, hnj, hk⟩ with h
    exact Option.isSome_iff_exists.mp h
  rcases hfind with ⟨m, hm_⟩
  have hmn : m = n :=
    match_unique hInv (mem_allNodes_of_mem_bucket (List.mem_of_find?_eq_some hm_))
      hn (List.find?_some hm_) hk
  simp only [hashmap_get, hhash, hidx, hm_, hmn]
  rfl

/-- Under the invariant, `get` succeeds exactly on contained keys. -/
theorem get_isSome_iff_contains {hm : Hashmap κ ν} (hInv : Inv hm) (hEq : EqOk hm)
    {k : κ} : (hashmap_get hm k).isSome = containsKey hm k := by
  rcases hcon : containsKey hm k with _ | _
  · rw [get_eq_none_of_not_contains hcon]; rfl
  · rcases List.any_eq_true.mp (by simpa [containsKey] using hcon) with ⟨n, hn, hk⟩
    rw [get_eq_some_of_mem hInv hEq hn hk]; rfl

/-! ### The rehashing fold of `resize` -/

theorem resize_true_eq (hm : Hashmap κ ν) (c : Nat) :
    resize true hm c =
      { hm with
        capacity := if c < HASHMAP_MINIMAL_CAPACITY then HASHMAP_MINIMAL_CAPACITY else c
        table := rehashFold
          (fun n => hm.fnHash n.key hm.keySize %
            (if c < HASHMAP_MINIMAL_CAPACITY then HASHMAP_MINIMAL_CAPACITY else c))
          (allNodes hm)
          (List.replicate
            (if c < HASHMAP_MINIMAL_CAPACITY then HASHMAP_MINIMAL_CAPACITY else c) []) } := by
  simp only [resize, rehashFold, allNodes, if_true]
  rw [List.foldl_flatten]

theorem resize_allocFail (hm : Hashmap κ ν) (c : Nat) : resize false hm c = hm := rfl

theorem length_prependAt (t : List (List (Node κ ν))) (i : Nat) (n : Node κ ν) :
    (prependAt t i n).length = t.length := by
  simp [prependAt]

theorem length_rehashFold (f : Node κ ν → Nat) (nodes : List (Node κ ν))
    (t : List (List (Node κ ν))) : (rehashFold f nodes t).length = t.length := by
  induction nodes generalizing t with
  | nil => rfl
  | cons n rest ih => rw [rehashFold, List.foldl_cons, ← rehashFold, ih, length_prependAt]

theorem prependAt_getD_self {t : List (List (Node κ ν))} {i : Nat}
    (hi : i < t.length) (n : Node κ ν) :
    (prependAt t i n).getD i [] = n :: t.getD i [] := by
  simp [prependAt, List.getD_eq_getElem?_getD, List.getElem?_set_self, hi,
    List.getElem?_eq_getElem hi]

theorem prependAt_getD_ne {t : List (List (Node κ ν))} {i j : Nat}
    (hij : i ≠ j) (n : Node κ ν) :
    (prependAt t i n).getD j [] = t.getD j [] := by
  simp [prependAt, List.getD_eq_getElem?_getD, List.getElem?_set_ne hij]

/-- One prepend moves the node to the front of the flattened table. -/
theorem flatten_prependAt_perm {t : List (List (Node κ ν))} {i : Nat}
    (hi : i < t.length) (n : Node κ ν) :
    (prependAt t i n).flatten.Perm (n :: t.flatten) := by
  induction t generalizing i with
  | nil => simp at hi
  | cons chain rest ih =>
    match i with
    | 0 => simp [prependAt]
    | j + 1 =>
      have hj : j < rest.length := by simpa using hi
      have hih := ih hj
      simp only [prependAt, List.set_cons_succ, List.flatten_cons] at hih ⊢
      exact (hih.append_left chain).trans List.perm_middle

/-- The rehash fold prepends every node (in order) into the table, as a
permutation of the flattened contents. -/
theorem flatten_rehashFold_perm (f : Node κ ν → Nat) {nodes : List (Node κ ν)}
    {t : List (List (Node κ ν))} (hf : ∀ n ∈ nodes, f n < t.length) :
    (rehashFold f nodes t).flatten.Perm (nodes ++ t.flatten) := by
  induction nodes generalizing t with
  | nil => rfl
  | cons n rest ih =>
    rw [rehashFold, List.foldl_cons, ← rehashFold]
    have h1 : ∀ m ∈ rest, f m < (prependAt t (f n) n).length := by
      rw [length_prependAt]; exact fun m hm_ => hf m (List.mem_cons_of_mem n hm_)
    have h2 := ih h1
    have h3 : (prependAt t (f n) n).flatten.Perm (n :: t.flatten) :=
      flatten_prependAt_perm (hf n (List.mem_cons_self n rest)) n
    exact h2.trans ((h3.append_left rest).trans List.perm_middle)

/-- The rehash fold preserves the chain-index discipline: if every chain of
`t` holds only nodes with target index `i`, the same holds afterwards. -/
theorem rehashFold_bucket (f : Node κ ν → Nat) {nodes : List (Node κ ν)}
    {t : List (List (Node κ ν))} (hf : ∀ n ∈ nodes, f n < t.length)
    (ht : ∀ i, i < t.length → ∀ m ∈ t.getD i [], f m = i) :
    ∀ i, i < t.length → ∀ m ∈ (rehashFold f nodes t).getD i [], f m = i := by
  induction nodes generalizing t with
  | nil => exact ht
  | cons n rest ih =>
    rw [rehashFold, List.foldl_cons, ← rehashFold]
    have hlen : (prependAt t (f n) n).length = t.length := length_prependAt ..
    have hf1 : ∀ m ∈ rest, f m < (prependAt t (f n) n).length := by
      rw [hlen]; exact fun m hm_ => hf m (List.mem_cons_of_mem n hm_)
    have ht1 : ∀ i, i < (prependAt t (f n) n).length →
        ∀ m ∈ (prependAt t (f n) n).getD i [], f m = i := by
      intro i hi m hmem
      rw [hlen] at hi
      rcases Decidable.em (f n = i) with hfe | hfe
      · subst hfe
        rw [prependAt_getD_self hi n] at hmem
        rcases List.mem_cons.mp hmem with hme | hmem
        · rw [hme]
        · exact ht (f n) hi m hmem
      · rw [prependAt_getD_ne hfe n] at hmem
        exact ht i hi m hmem
    intro i hi
    exact ih hf1 ht1 i (hlen ▸ hi)

/-! ### Facts about `resize`, `auto_grow`, `auto_shrink` -/

theorem clamp_ge_min (c : Nat) :
    HASHMAP_MINIMAL_CAPACITY ≤
      (if c < HASHMAP_MINIMAL_CAPACITY then HASHMAP_MINIMAL_CAPACITY else c) := by
  split
  · exact Nat.le_refl _
  · omega

theorem resize_capacity (hm : Hashmap κ ν) (c : Nat) :
    (resize true hm c).capacity =
      if c < HASHMAP_MINIMAL_CAPACITY then HASHMAP_MINIMAL_CAPACITY else c := by
  rw [resize_true_eq]

theorem resize_count (ok : Bool) (hm : Hashmap κ ν) (c : Nat) :
    (resize ok hm c).count = hm.count := by cases ok <;> simp [resize]

theorem resize_keySize (ok : Bool) (hm : Hashmap κ ν) (c : Nat) :
    (resize ok hm c).keySize = hm.keySize := by cases ok <;> simp [resize]

theorem resize_valueSize (ok : Bool) (hm : Hashmap κ ν) (c : Nat) :
    (resize ok hm c).valueSize = hm.valueSize := by cases ok <;> simp [resize]

theorem resize_fnHash (ok : Bool) (hm : Hashmap κ ν) (c : Nat) :
    (resize ok hm c).fnHash = hm.fnHash := by cases ok <;> simp [resize]

theorem resize_fnCompare (ok : Bool) (hm : Hashmap κ ν) (c : Nat) :
    (resize ok hm c).fnCompare = hm.fnCompare := by cases ok <;> simp [resize]

theorem resize_fnAllocCopyKey (ok : Bool) (hm : Hashmap κ ν) (c : Nat) :
    (resize ok hm c).fnAllocCopyKey = hm.fnAllocCopyKey := by cases ok <;> simp [resize]

theorem resize_fnAllocCopyValue (ok : Bool) (hm : Hashmap κ ν) (c : Nat) :
    (resize ok hm c).fnAllocCopyValue = hm.fnAllocCopyValue := by cases ok <;> simp [resize]

theorem resize_thresholdMin (ok : Bool) (hm : Hashmap κ ν) (c : Nat) :
    (resize ok hm c).thresholdMin = hm.thresholdMin := by cases ok <;> simp [resize]

theorem resize_thresholdMax (ok : Bool) (hm : Hashmap κ ν) (c : Nat) :
    (resize ok hm c).thresholdMax = hm.thresholdMax := by cases ok <;> simp [resize]

theorem keyMatch_resize (ok : Bool) (hm : Hashmap κ ν) (c : Nat) (k : κ)
    (n : Node κ ν) : keyMatch (resize ok hm c) k n = keyMatch hm k n := by
  simp [keyMatch, resize_fnCompare, resize_keySize]

theorem getD_replicate_nil {α : Type} (n i : Nat) :
    (List.replicate n ([] : List α)).getD i [] = [] := by
  rw [List.getD_eq_getElem?_getD, List.getElem?_replicate]
  split <;> rfl

theorem resize_table_length (hm : Hashmap κ ν) (c : Nat) :
    (resize true hm c).table.length = (resize true hm c).capacity := by
  rw [resize_true_eq]
  simp [length_rehashFold]

theorem allNodes_resize_perm (hm : Hashmap κ ν) (c : Nat) :
    (allNodes (resize true hm c)).Perm (allNodes hm) := by
  rw [resize_true_eq]
  have hcap : 0 < (if c < HASHMAP_MINIMAL_CAPACITY then HASHMAP_MINIMAL_CAPACITY else c) :=
    Nat.lt_of_lt_of_le (by decide) (clamp_ge_min c)
  have hperm := @flatten_rehashFold_perm κ ν
    (fun n : Node κ ν => hm.fnHash n.key hm.keySize %
      (if c < HASHMAP_MINIMAL_CAPACITY then HASHMAP_MINIMAL_CAPACITY else c))
    (allNodes hm)
    (List.replicate (if c < HASHMAP_MINIMAL_CAPACITY then HASHMAP_MINIMAL_CAPACITY else c) [])
    (fun n _ => by simpa using Nat.mod_lt _ hcap)
  simpa [allNodes] using hperm

/-- Rehashing into a fresh zeroed table yields chains that respect the target
index function. -/
theorem rehash_table_bucket_inv (f : Node κ ν → Nat) (nodes : List (Node κ ν))
    (cap : Nat) (hf : ∀ n, f n < cap) :
    ∀ i, i < (rehashFold f nodes (List.replicate cap ([] : List (Node κ ν)))).length →
      ∀ m ∈ (rehashFold f nodes (List.replicate cap ([] : List (Node κ ν)))).getD i [],
        f m = i := by
  have hbase : ∀ j, j < (List.replicate cap ([] : List (Node κ ν))).length →
      ∀ m ∈ (List.replicate cap ([] : List (Node κ ν))).getD j [], f m = j := by
    intro j hj m hmem
    rw [getD_replicate_nil] at hmem
    cases hmem
  intro i hi
  exact rehashFold_bucket f (fun n _ => by simpa using hf n) hbase i
    (by simpa [length_rehashFold] using hi)

theorem resize_bucket_inv (hm : Hashmap κ ν) (c : Nat) :
    ∀ i, i < (resize true hm c).table.length →
      ∀ n ∈ bucket (resize true hm c) i,
        (resize true hm c).fnHash n.key (resize true hm c).keySize %
          (resize true hm c).capacity = i := by
  have hcap : 0 < (if c < HASHMAP_MINIMAL_CAPACITY then HASHMAP_MINIMAL_CAPACITY else c) :=
    Nat.lt_of_lt_of_le (by decide) (clamp_ge_min c)
  rw [resize_true_eq]
  intro i hi n hn
  exact rehash_table_bucket_inv
    (fun m => hm.fnHash m.key hm.keySize %
      (if c < HASHMAP_MINIMAL_CAPACITY then HASHMAP_MINIMAL_CAPACITY else c))
    (allNodes hm) _ (fun m => Nat.mod_lt _ hcap) i
    (by simpa using hi) n (by simpa [bucket] using hn)

/-- Uniqueness of key matches is preserved by a successful resize (the nodes
are merely relocated). -/
theorem resize_countP (hm : Hashmap κ ν) (c : Nat) (k : κ) :
    (allNodes (resize true hm c)).countP (keyMatch (resize true hm c) k) =
      (allNodes hm).countP (keyMatch hm k) := by
  have h1 : (allNodes (resize true hm c)).countP (keyMatch (resize true hm c) k) =
      (allNodes (resize true hm c)).countP (keyMatch hm k) := by
    apply List.countP_congr
    intro n _
    rw [keyMatch_resize]
  rw [h1]
  exact (allNodes_resize_perm hm c).countP_eq _

/-- A successful resize of a uniqueness-respecting table satisfies the full
invariant. -/
theorem resize_Inv (hm : Hashmap κ ν)
    (hq : ∀ k, (allNodes hm).countP (keyMatch hm k) ≤ 1) (c : Nat) :
    Inv (resize true hm c) := by
  refine ⟨resize_table_length hm c, ?_, resize_bucket_inv hm c, ?_⟩
  · rw [resize_capacity]; exact clamp_ge_min c
  · intro k
    rw [resize_countP]
    exact hq k

theorem EqOk_resize (ok : Bool) (hm : Hashmap κ ν) (c : Nat) (h : EqOk hm) :
    EqOk (resize ok hm c) := by
  simpa [EqOk, resize_fnCompare, resize_fnHash, resize_keySize] using h

theorem auto_grow_allocFail (hm : Hashmap κ ν) : auto_grow false hm = hm := by
  unfold auto_grow
  split <;> rfl

theorem auto_shrink_allocFail (hm : Hashmap κ ν) : auto_shrink false hm = hm := by
  unfold auto_shrink
  split <;> rfl

theorem auto_grow_count (ok : Bool) (hm : Hashmap κ ν) :
    (auto_grow ok hm).count = hm.count := by
  unfold auto_grow
  split <;> simp [resize_count]

theorem auto_shrink_count (ok : Bool) (hm : Hashmap κ ν) :
    (auto_shrink ok hm).count = hm.count := by
  unfold auto_shrink
  split <;> simp [resize_count]

theorem auto_grow_keySize (ok : Bool) (hm : Hashmap κ ν) :
    (auto_grow ok hm).keySize = hm.keySize := by
  unfold auto_grow
  split <;> simp [resize_keySize]

theorem auto_grow_valueSize (ok : Bool) (hm : Hashmap κ ν) :
    (auto_grow ok hm).valueSize = hm.valueSize := by
  unfold auto_grow
  split <;> simp [resize_valueSize]

theorem auto_grow_fnHash (ok : Bool) (hm : Hashmap κ ν) :
    (auto_grow ok hm).fnHash = hm.fnHash := by
  unfold auto_grow
  split <;> simp [resize_fnHash]

theorem auto_grow_fnCompare (ok : Bool) (hm : Hashmap κ ν) :
    (auto_grow ok hm).fnCompare = hm.fnCompare := by
  unfold auto_grow
  split <;> simp [resize_fnCompare]

theorem auto_grow_fnAllocCopyKey (ok : Bool) (hm : Hashmap κ ν) :
    (auto_grow ok hm).fnAllocCopyKey = hm.fnAllocCopyKey := by
  unfold auto_grow
  split <;> simp [resize_fnAllocCopyKey]

theorem auto_grow_fnAllocCopyValue (ok : Bool) (hm : Hashmap κ ν) :
    (auto_grow ok hm).fnAllocCopyValue = hm.fnAllocCopyValue := by
  unfold auto_grow
  split <;> simp [resize_fnAllocCopyValue]

theorem allNodes_auto_grow_perm (ok : Bool) (hm : Hashmap κ ν) :
    (allNodes (auto_grow ok hm)).Perm (allNodes hm) := by
  cases ok
  · rw [auto_grow_allocFail]
  · unfold auto_grow
    split
    · exact allNodes_resize_perm hm _
    · exact List.Perm.refl _

theorem allNodes_auto_shrink_perm (ok : Bool) (hm : Hashmap κ ν) :
    (allNodes (auto_shrink ok hm)).Perm (allNodes hm) := by
  cases ok
  · rw [auto_shrink_allocFail]
  · unfold auto_shrink
    split
    · exact allNodes_resize_perm hm _
    · exact List.Perm.refl _

theorem keyMatch_auto_grow (ok : Bool) (hm : Hashmap κ ν) (k : κ) (n : Node κ ν) :
    keyMatch (auto_grow ok hm) k n = keyMatch hm k n := by
  simp [keyMatch, auto_grow_fnCompare, auto_grow_keySize]

theorem keyMatch_auto_shrink (ok : Bool) (hm : Hashmap κ ν) (k : κ) (n : Node κ ν) :
    keyMatch (auto_shrink ok hm) k n = keyMatch hm k n := by
  unfold auto_shrink
  split <;> simp [keyMatch, resize_fnCompare, resize_keySize]

/-! ### The chain walk of `hashmap_remove` -/

theorem chainRemoveFirst_eq_none {hm : Hashmap κ ν} {k : κ} {chain : List (Node κ ν)} :
    chainRemoveFirst hm k chain = none ↔ ∀ n ∈ chain, keyMatch hm k n = false := by
  induction chain with
  | nil => simp [chainRemoveFirst]
  | cons n rest ih =>
    rw [chainRemoveFirst]
    split
    case isTrue h => simp [h]
    case isFalse h =>
      have hfalse : keyMatch hm k n = false := by
        rcases hkm : keyMatch hm k n with _ | _
        · rfl
        · exact absurd hkm h
      simp [Option.map_eq_none', ih, hfalse]

theorem chainRemoveFirst_eq_some {hm : Hashmap κ ν} {k : κ}
    {chain chain2 : List (Node κ ν)} (h : chainRemoveFirst hm k chain = some chain2) :
    ∃ n, keyMatch hm k n = true ∧ chain.Perm (n :: chain2) := by
  induction chain generalizing chain2 with
  | nil => cases h
  | cons m rest ih =>
    rw [chainRemoveFirst] at h
    split at h
    case isTrue hmatch =>
      cases h
      exact ⟨m, hmatch, List.Perm.refl _⟩
    case isFalse hmatch =>
      rcases Option.map_eq_some.mp h with ⟨r, hr, rfl⟩
      rcases ih hr with ⟨n, hn, hperm⟩
      exact ⟨n, hn, (hperm.cons m).trans (List.Perm.swap n m r)⟩

/-- Replacing chain `i` (a permutation of `n :: x`) by `x` removes exactly one
copy of `n` from the flattened table. -/
theorem flatten_set_perm {α : Type} {t : List (List α)} {i : Nat} (hi : i < t.length)
    {x : List α} {n : α} (h : (t.getD i []).Perm (n :: x)) :
    t.flatten.Perm (n :: (t.set i x).flatten) := by
  induction t generalizing i with
  | nil => simp at hi
  | cons c rest ih =>
    match i with
    | 0 =>
      simp only [List.getD_cons_zero] at h
      simp only [List.set_cons_zero, List.flatten_cons]
      exact h.append_right rest.flatten
    | j + 1 =>
      have hj : j < rest.length := by simpa using hi
      have hih := ih hj (by simpa using h)
      simp only [List.set_cons_succ, List.flatten_cons]
      exact (hih.append_left c).trans List.perm_middle

/-- A remove that finds nothing in the searched chain returns `(hm, false)`. -/
theorem remove_eq_of_no_bucket_match {ok : Bool} {hm : Hashmap κ ν} {k : κ}
    (h : ∀ n ∈ bucket hm (hm.fnHash k hm.keySize % hm.capacity),
      keyMatch hm k n = false) :
    hashmap_remove ok hm k = (hm, false) := by
  simp only [hashmap_remove]
  rw [chainRemoveFirst_eq_none.mpr h]

/-- A remove on a contained key returns true and deletes exactly one matching
node from the live set. -/
theorem remove_spec {ok : Bool} {hm : Hashmap κ ν} {k : κ}
    (hInv : Inv hm) (hEq : EqOk hm) (hc : containsKey hm k = true) :
    (hashmap_remove ok hm k).2 = true ∧
    ∃ n, keyMatch hm k n = true ∧
      (allNodes hm).Perm (n :: allNodes (hashmap_remove ok hm k).1) := by
  rcases List.any_eq_true.mp (by simpa [containsKey] using hc) with ⟨n, hn, hk⟩
  rcases exists_bucket_of_mem_allNodes hn with ⟨j, hj, hnj⟩
  have hjdx : hm.fnHash n.key hm.keySize % hm.capacity = j := hInv.2.2.1 j hj n hnj
  have hidx : hm.fnHash k hm.keySize % hm.capacity = j := by
    rw [hEq.2.2 k n.key hk, hjdx]
  cases hrem : chainRemoveFirst hm k (bucket hm (hm.fnHash k hm.keySize % hm.capacity)) with
  | none =>
    exfalso
    have := chainRemoveFirst_eq_none.mp hrem n (by rwa [hidx])
    rw [hk] at this
    cases this
  | some chain2 =>
    rcases chainRemoveFirst_eq_some hrem with ⟨m, hmk, hperm⟩
    have hres : hashmap_remove ok hm k =
        (auto_shrink ok
          { hm with
              table := hm.table.set (hm.fnHash k hm.keySize % hm.capacity) chain2
              count := hm.count - 1 },
          true) := by
      simp only [hashmap_remove]
      rw [hrem]
    refine ⟨by rw [hres], m, hmk, ?_⟩
    have hlt : hm.fnHash k hm.keySize % hm.capacity < hm.table.length := by
      rw [hidx]; exact hj
    have h1 : (allNodes hm).Perm
        (m :: (hm.table.set (hm.fnHash k hm.keySize % hm.capacity) chain2).flatten) :=
      flatten_set_perm hlt (by exact hperm)
    rw [hres]
    refine h1.trans (List.Perm.cons m ?_)
    exact (allNodes_auto_shrink_perm ok
      { hm with
          table := hm.table.set (hm.fnHash k hm.keySize % hm.capacity) chain2
          count := hm.count - 1 }).symm

/-- Removal never changes the strategy set or sizes, so the node-match test is
stable across it. -/
theorem keyMatch_remove (ok : Bool) (hm : Hashmap κ ν) (k k2 : κ) (n : Node κ ν) :
    keyMatch (hashmap_remove ok hm k).1 k2 n = keyMatch hm k2 n := by
  simp only [hashmap_remove]
  cases hrem : chainRemoveFirst hm k (bucket hm (hm.fnHash k hm.keySize % hm.capacity)) with
  | none => rfl
  | some chain2 => exact keyMatch_auto_shrink ok _ k2 n

/-- After a successful remove, no live node matches the removed key. -/
theorem remove_no_match {ok : Bool} {hm : Hashmap κ ν} {k : κ}
    (hInv : Inv hm) (hEq : EqOk hm) (hc : containsKey hm k = true) :
    ∀ n ∈ allNodes (hashmap_remove ok hm k).1,
      keyMatch (hashmap_remove ok hm k).1 k n = false := by
  rcases @remove_spec κ ν ok hm k hInv hEq hc with ⟨-, m, hmk, hperm⟩
  have hcount := hInv.2.2.2 k
  have hperm_count := hperm.countP_eq (keyMatch hm k)
  simp only [List.countP_cons, hmk, if_true] at hperm_count
  have hzero : (allNodes (hashmap_remove ok hm k).1).countP (keyMatch hm k) = 0 := by
    omega
  intro n hn
  rw [keyMatch_remove]
  have := List.countP_eq_zero.mp hzero n hn
  simpa using this

theorem containsKey_remove_false {ok : Bool} {hm : Hashmap κ ν} {k : κ}
    (hInv : Inv hm) (hEq : EqOk hm) (hc : containsKey hm k = true) :
    containsKey (hashmap_remove ok hm k).1 k = false := by
  rw [containsKey, List.any_eq_false]
  intro n hn
  simpa using @remove_no_match κ ν ok hm k hInv hEq hc n hn

/-! ### The concrete table `natHm` satisfies the hypotheses -/

theorem natHm_Inv : Inv natHm := by
  refine ⟨rfl, by decide, by decide, ?_⟩
  intro k
  exact Nat.le_of_lt_succ (Nat.lt_succ_of_le (List.countP_le_length _))

theorem natHm_EqOk : EqOk natHm := by
  refine ⟨?_, ?_, ?_⟩ <;> simp only [natHm]
  · intro a b
    rcases Decidable.em (a = b) with h | h
    · rw [h]
    · rw [beq_eq_false_iff_ne.mpr h, beq_eq_false_iff_ne.mpr (Ne.symm h)]
  · intro a b c h1 h2
    rw [show a = b by simpa using h1]
    exact h2
  · intro a b h
    rw [show a = b by simpa using h]

/-! ### Capacity bookkeeping for `add` and `remove` -/

theorem auto_grow_capacity (hm : Hashmap κ ν) :
    (auto_grow true hm).capacity =
      if loadBalance hm.count hm.capacity > hm.thresholdMax then
        (if get_auto_growth_new_capacity hm < HASHMAP_MINIMAL_CAPACITY then
          HASHMAP_MINIMAL_CAPACITY else get_auto_growth_new_capacity hm)
      else hm.capacity := by
  unfold auto_grow
  split
  case isTrue h => exact resize_capacity hm _
  case isFalse h => rfl

theorem auto_shrink_capacity (hm : Hashmap κ ν) :
    (auto_shrink true hm).capacity =
      if loadBalance hm.count hm.capacity < hm.thresholdMin then
        (if get_auto_shrink_new_capacity hm < HASHMAP_MINIMAL_CAPACITY then
          HASHMAP_MINIMAL_CAPACITY else get_auto_shrink_new_capacity hm)
      else hm.capacity := by
  unfold auto_shrink
  split
  case isTrue h => exact resize_capacity hm _
  case isFalse h => rfl

/-- On the fresh-key path, the capacity after `add` is whatever `auto_grow`
left, regardless of whether node creation succeeds. -/
theorem add_capacity_eq {hm : Hashmap κ ν} {k : κ} {v : ν} (rOk mOk : Bool)
    (hget : hashmap_get hm k = none) :
    (hashmap_add rOk mOk hm k v).1.capacity =
      (auto_grow rOk { hm with count := hm.count + 1 }).capacity := by
  simp only [hashmap_add]
  rw [hget]
  cases node_create mOk (auto_grow rOk { hm with count := hm.count + 1 }) k v <;> rfl

/-- Likewise for `count`: on the fresh-key path it ends at `count + 1` on
success and back at `count` on node-creation failure. -/
theorem add_count_eq {hm : Hashmap κ ν} {k : κ} {v : ν} (rOk mOk : Bool)
    (hget : hashmap_get hm k = none) :
    (hashmap_add rOk mOk hm k v).1.count =
      match node_create mOk (auto_grow rOk { hm with count := hm.count + 1 }) k v with
      | none => hm.count
      | some _ => hm.count + 1 := by
  simp only [hashmap_add]
  rw [hget]
  cases node_create mOk (auto_grow rOk { hm with count := hm.count + 1 }) k v <;>
    simp [auto_grow_count]

/-- A contained key makes `chainRemoveFirst` succeed on the searched chain. -/
theorem chainRemoveFirst_isSome_of_contains {hm : Hashmap κ ν} {k : κ}
    (hInv : Inv hm) (hEq : EqOk hm) (hc : containsKey hm k = true) :
    ∃ chain2, chainRemoveFirst hm k
      (bucket hm (hm.fnHash k hm.keySize % hm.capacity)) = some chain2 := by
  rcases List.any_eq_true.mp (by simpa [containsKey] using hc) with ⟨n, hn, hk⟩
  rcases exists_bucket_of_mem_allNodes hn with ⟨j, hj, hnj⟩
  have hjdx : hm.fnHash n.key hm.keySize % hm.capacity = j := hInv.2.2.1 j hj n hnj
  have hidx : hm.fnHash k hm.keySize % hm.capacity = j := by
    rw [hEq.2.2 k n.key hk, hjdx]
  cases hrem : chainRemoveFirst hm k (bucket hm (hm.fnHash k hm.keySize % hm.capacity)) with
  | none =>
    exfalso
    have := chainRemoveFirst_eq_none.mp hrem n (by rwa [hidx])
    rw [hk] at this
    cases this
  | some chain2 => exact ⟨chain2, rfl⟩

/-- A remove that finds its key hands `auto_shrink` the decremented count and
the unchanged capacity. -/
theorem remove_capacity_count {hm : Hashmap κ ν} {k : κ} (ok : Bool)
    (hInv : Inv hm) (hEq : EqOk hm) (hc : containsKey hm k = true) :
    ((hashmap_remove ok hm k).1.capacity =
      (auto_shrink ok
        { hm with
            table := hm.table.set (hm.fnHash k hm.keySize % hm.capacity)
              ((chainRemoveFirst hm k
                (bucket hm (hm.fnHash k hm.keySize % hm.capacity))).getD [])
            count := hm.count - 1 }).capacity) ∧
    (hashmap_remove ok hm k).1.count = hm.count - 1 := by
  rcases chainRemoveFirst_isSome_of_contains hInv hEq hc with ⟨chain2, hrem⟩
  have hres : hashmap_remove ok hm k =
      (auto_shrink ok
        { hm with
            table := hm.table.set (hm.fnHash k hm.keySize % hm.capacity) chain2
            count := hm.count - 1 }, true) := by
    simp only [hashmap_remove]
    rw [hrem]
  rw [hres, hrem]
  exact ⟨rfl, by simp [auto_shrink_count]⟩

/-! ### Claim theorems -/

/-- C1: calling `add` with a key already present in the table (under the
invariant and a coherent strategy set) leaves the whole table — in particular
`count` and the stored value — unchanged, and returns the previously stored
value (`hashmap_get`'s result), which exists. -/
theorem claim_C1_add_existing {hm : Hashmap κ ν} {k : κ} {v2 : ν}
    (resizeOk mallocOk : Bool) (hInv : Inv hm) (hEq : EqOk hm)
    (hc : containsKey hm k = true) :
    hashmap_add resizeOk mallocOk hm k v2 = (hm, hashmap_get hm k) ∧
    (hashmap_get hm k).isSome = true := by
  have hsome : (hashmap_get hm k).isSome = true := by
    rw [get_isSome_iff_contains hInv hEq, hc]
  rcases Option.isSome_iff_exists.mp hsome with ⟨v, hv⟩
  refine ⟨?_, hsome⟩
  simp only [hashmap_add]
  rw [hv]

/-- C1 witness: on the concrete table `natHm` (capacity 2, binding 0 ↦ 10),
re-adding key 0 with value 99 is a no-op returning the stored value. -/
theorem claim_C1_witness :
    hashmap_add true true natHm 0 99 = (natHm, hashmap_get natHm 0) ∧
    (hashmap_get natHm 0).isSome = true :=
  claim_C1_add_existing true true natHm_Inv natHm_EqOk (by decide)

/-- C3: `remove k` returns true exactly when a node matching `k` is live in
the table; after a successful remove, `get k` is the not-found sentinel and a
second `remove k` returns false leaving the table unchanged. -/
theorem claim_C3_remove_semantics {hm : Hashmap κ ν} {k : κ} (ok1 ok2 : Bool)
    (hInv : Inv hm) (hEq : EqOk hm) :
    (hashmap_remove ok1 hm k).2 = containsKey hm k ∧
    (containsKey hm k = true →
      hashmap_get (hashmap_remove ok1 hm k).1 k = none ∧
      hashmap_remove ok2 (hashmap_remove ok1 hm k).1 k =
        ((hashmap_remove ok1 hm k).1, false)) := by
  have hnomatch : containsKey hm k = true →
      ∀ n ∈ allNodes (hashmap_remove ok1 hm k).1,
        keyMatch (hashmap_remove ok1 hm k).1 k n = false :=
    fun hc => remove_no_match hInv hEq hc
  constructor
  · rcases hc : containsKey hm k with _ | _
    · have hb : ∀ n ∈ bucket hm (hm.fnHash k hm.keySize % hm.capacity),
          keyMatch hm k n = false := by
        intro n hn
        have := (List.any_eq_false).mp (by simpa [containsKey] using hc) n
          (mem_allNodes_of_mem_bucket hn)
        simpa using this
      rw [remove_eq_of_no_bucket_match hb]
    · exact (remove_spec hInv hEq hc).1
  · intro hc
    constructor
    · exact get_eq_none_of_not_contains (containsKey_remove_false hInv hEq hc)
    · refine remove_eq_of_no_bucket_match ?_
      intro n hn
      exact hnomatch hc n (mem_allNodes_of_mem_bucket hn)

/-- C3 witness: removing key 0 from `natHm` succeeds; then `get 0` is none and
a second remove returns false. -/
theorem claim_C3_witness :
    (hashmap_remove true natHm 0).2 = containsKey natHm 0 ∧
    (containsKey natHm 0 = true →
      hashmap_get (hashmap_remove true natHm 0).1 0 = none ∧
      hashmap_remove true (hashmap_remove true natHm 0).1 0 =
        ((hashmap_remove true natHm 0).1, false)) :=
  claim_C3_remove_semantics true true natHm_Inv natHm_EqOk

/-- C4: after a structural mutation (with the resize allocation succeeding),
the policy fires exactly by the implemented formulas: an `add` of a fresh key
grows to `capacity + capacity/2` when the new load exceeds the max threshold,
a `remove` of a contained key shrinks to `capacity/2` when the new load drops
below the min threshold, both targets are clamped to the minimal capacity 2,
and the resulting capacity never drops below 2. -/
theorem claim_C4_resize_policy {hm : Hashmap κ ν} (k : κ) (v : ν) (mOk : Bool)
    (hInv : Inv hm) (hEq : EqOk hm) :
    (containsKey hm k = false →
      (hashmap_add true mOk hm k v).1.capacity =
        (if loadBalance (hm.count + 1) hm.capacity > hm.thresholdMax then
          (if hm.capacity + hm.capacity / 2 < HASHMAP_MINIMAL_CAPACITY then
            HASHMAP_MINIMAL_CAPACITY
          else hm.capacity + hm.capacity / 2)
        else hm.capacity) ∧
      HASHMAP_MINIMAL_CAPACITY ≤ (hashmap_add true mOk hm k v).1.capacity) ∧
    (containsKey hm k = true →
      (hashmap_remove true hm k).1.capacity =
        (if loadBalance (hm.count - 1) hm.capacity < hm.thresholdMin then
          (if hm.capacity / 2 < HASHMAP_MINIMAL_CAPACITY then
            HASHMAP_MINIMAL_CAPACITY
          else hm.capacity / 2)
        else hm.capacity) ∧
      HASHMAP_MINIMAL_CAPACITY ≤ (hashmap_remove true hm k).1.capacity) := by
  constructor
  · intro hc
    have hget : hashmap_get hm k = none := get_eq_none_of_not_contains hc
    have h1 := @add_capacity_eq κ ν hm k v true mOk hget
    rw [h1, auto_grow_capacity]
    refine ⟨rfl, ?_⟩
    split
    · exact clamp_ge_min _
    · exact hInv.2.1
  · intro hc
    have h2 := @remove_capacity_count κ ν hm k true hInv hEq hc
    rw [h2.1, auto_shrink_capacity]
    refine ⟨rfl, ?_⟩
    split
    · exact clamp_ge_min _
    · exact hInv.2.1

/-- C4 witness: on `natHm` (capacity 2, count 1), adding fresh key 1 grows to
3 = 2 + 2/2, and removing key 0 shrinks to the clamped floor 2. -/
theorem claim_C4_witness :
    (containsKey natHm 1 = false →
      (hashmap_add true true natHm 1 20).1.capacity =
        (if loadBalance (natHm.count + 1) natHm.capacity > natHm.thresholdMax then
          (if natHm.capacity + natHm.capacity / 2 < HASHMAP_MINIMAL_CAPACITY then
            HASHMAP_MINIMAL_CAPACITY
          else natHm.capacity + natHm.capacity / 2)
        else natHm.capacity) ∧
      HASHMAP_MINIMAL_CAPACITY ≤ (hashmap_add true true natHm 1 20).1.capacity) ∧
    (containsKey natHm 0 = true →
      (hashmap_remove true natHm 0).1.capacity =
        (if loadBalance (natHm.count - 1) natHm.capacity < natHm.thresholdMin then
          (if natHm.capacity / 2 < HASHMAP_MINIMAL_CAPACITY then
            HASHMAP_MINIMAL_CAPACITY
          else natHm.capacity / 2)
        else natHm.capacity) ∧
      HASHMAP_MINIMAL_CAPACITY ≤ (hashmap_remove true natHm 0).1.capacity) :=
  ⟨(claim_C4_resize_policy 1 20 true natHm_Inv natHm_EqOk).1,
   (claim_C4_resize_policy 0 20 true natHm_Inv natHm_EqOk).2⟩

/-- C5: a successful resize relinks every entry into the chain at
`hash(key) mod new_capacity`, keeps exactly the same entries (a permutation —
nodes are relocated, never recreated or modified), and every key retrievable
before is retrievable with its original value afterwards. -/
theorem claim_C5_resize_correct {hm : Hashmap κ ν} (c : Nat)
    (hInv : Inv hm) (hEq : EqOk hm) :
    (∀ i, i < (resize true hm c).table.length →
      ∀ n ∈ bucket (resize true hm c) i,
        hm.fnHash n.key hm.keySize % (resize true hm c).capacity = i) ∧
    (allNodes (resize true hm c)).Perm (allNodes hm) ∧
    (∀ k v, hashmap_get hm k = some v → hashmap_get (resize true hm c) k = some v) := by
  refine ⟨?_, allNodes_resize_perm hm c, ?_⟩
  · intro i hi n hn
    have := resize_bucket_inv hm c i hi n hn
    rwa [resize_fnHash, resize_keySize] at this
  · intro k v hv
    rcases exists_match_of_get_some hv with ⟨n, hn, hk, hval⟩
    have hn2 : n ∈ allNodes (resize true hm c) :=
      ((allNodes_resize_perm hm c).mem_iff).mpr hn
    have hk2 : keyMatch (resize true hm c) k n = true := by
      rw [keyMatch_resize]
      exact hk
    rw [get_eq_some_of_mem (resize_Inv hm hInv.2.2.2 c)
      (EqOk_resize true hm c hEq) hn2 hk2, hval]

/-- C5 witness: resizing `natHm` to capacity 5 keeps the binding 0 ↦ 10
retrievable. -/
theorem claim_C5_witness :
    (∀ i, i < (resize true natHm 5).table.length →
      ∀ n ∈ bucket (resize true natHm 5) i,
        natHm.fnHash n.key natHm.keySize % (resize true natHm 5).capacity = i) ∧
    (allNodes (resize true natHm 5)).Perm (allNodes natHm) ∧
    (∀ k v, hashmap_get natHm k = some v →
      hashmap_get (resize true natHm 5) k = some v) :=
  claim_C5_resize_correct 5 natHm_Inv natHm_EqOk

/-- Transfer of key absence along a permutation of the live nodes with the
same match test. -/
theorem containsKey_eq_false_congr {hm hm2 : Hashmap κ ν} {k : κ}
    (hperm : (allNodes hm2).Perm (allNodes hm))
    (hkm : ∀ n, keyMatch hm2 k n = keyMatch hm k n)
    (hc : containsKey hm k = false) : containsKey hm2 k = false := by
  rw [containsKey, List.any_eq_false]
  intro n hn
  rw [hkm n]
  have := List.any_eq_false.mp (by simpa [containsKey] using hc) n (hperm.mem_iff.mp hn)
  simpa using this

/-- C6 counterexample: the claim is false as stated.  On `natHm` (capacity 2,
count 1), adding fresh key 1 first bumps the count to 2 and grows the table
to capacity 3; when node creation then fails, the count is rolled back and
NULL is returned — but the grown capacity 3 persists, so the table is *not*
exactly as before the call (its capacity was 2). -/
theorem claim_C6_counterexample :
    (hashmap_add true false natHm 1 20).2 = none ∧
    (hashmap_add true false natHm 1 20).1.count = natHm.count ∧
    (hashmap_add true false natHm 1 20).1.capacity = 3 ∧
    natHm.capacity = 2 := by decide

/-- C6 amended: if node creation fails during `add` of a fresh key, `add`
returns the failure sentinel, the count is rolled back to its pre-call value,
no entry is inserted (the live entries are exactly the old ones, and the key
stays absent) — but a grow triggered by the provisional count increment may
already have replaced the bucket array, so the capacity may differ from
before the call. -/
theorem claim_C6_amended_rollback {hm : Hashmap κ ν} (k : κ) (v : ν) (rOk : Bool)
    (hc : containsKey hm k = false) :
    (hashmap_add rOk false hm k v).2 = none ∧
    (hashmap_add rOk false hm k v).1.count = hm.count ∧
    (allNodes (hashmap_add rOk false hm k v).1).Perm (allNodes hm) ∧
    hashmap_get (hashmap_add rOk false hm k v).1 k = none := by
  have hget : hashmap_get hm k = none := get_eq_none_of_not_contains hc
  have hres : hashmap_add rOk false hm k v =
      ({ auto_grow rOk { hm with count := hm.count + 1 } with
          count := (auto_grow rOk { hm with count := hm.count + 1 }).count - 1 },
        none) := by
    simp only [hashmap_add]
    rw [hget]
    rfl
  have hperm : (allNodes (hashmap_add rOk false hm k v).1).Perm (allNodes hm) := by
    rw [hres]
    exact allNodes_auto_grow_perm rOk { hm with count := hm.count + 1 }
  have hkm : ∀ n, keyMatch (hashmap_add rOk false hm k v).1 k n = keyMatch hm k n := by
    intro n
    rw [hres]
    simp [keyMatch, auto_grow_fnCompare, auto_grow_keySize]
  refine ⟨by rw [hres], ?_, hperm, ?_⟩
  · rw [hres]
    simp [auto_grow_count]
  · exact get_eq_none_of_not_contains (containsKey_eq_false_congr hperm hkm hc)

/-- C6 witness (for the amended claim): same scenario as the counterexample —
the failure sentinel, the rolled-back count, the preserved entries and the
still-absent key, capacity change notwithstanding. -/
theorem claim_C6_witness :
    (hashmap_add true false natHm 1 20).2 = none ∧
    (hashmap_add true false natHm 1 20).1.count = natHm.count ∧
    (allNodes (hashmap_add true false natHm 1 20).1).Perm (allNodes natHm) ∧
    hashmap_get (hashmap_add true false natHm 1 20).1 1 = none :=
  claim_C6_amended_rollback 1 20 true (by decide)

/-- C7: when the bucket-array allocation of a resize fails, the resize is
abandoned with the table unchanged, and the `add`/`remove` that triggered it
still completes under the old capacity: the fresh key is inserted (and
immediately gettable), the contained key is removed, and capacity stays put
while count moves by one. -/
theorem claim_C7_resize_alloc_failure {hm : Hashmap κ ν} (k : κ) (v : ν)
    {k2 : κ} {v2 : ν} (hInv : Inv hm) (hEq : EqOk hm)
    (hkc : hm.fnAllocCopyKey k hm.keySize = some k2)
    (hvc : hm.fnAllocCopyValue v hm.valueSize = some v2)
    (hmatch : hm.fnCompare k k2 hm.keySize = true) :
    (∀ c, resize false hm c = hm) ∧
    (containsKey hm k = false →
      (hashmap_add false true hm k v).2 = some v2 ∧
      (hashmap_add false true hm k v).1.capacity = hm.capacity ∧
      (hashmap_add false true hm k v).1.count = hm.count + 1 ∧
      hashmap_get (hashmap_add false true hm k v).1 k = some v2) ∧
    (containsKey hm k = true →
      (hashmap_remove false hm k).2 = true ∧
      (hashmap_remove false hm k).1.capacity = hm.capacity ∧
      (hashmap_remove false hm k).1.count = hm.count - 1) := by
  refine ⟨fun c => resize_allocFail hm c, ?_, ?_⟩
  · intro hc
    have hget : hashmap_get hm k = none := get_eq_none_of_not_contains hc
    have hnode : node_create true { hm with count := hm.count + 1 } k v =
        some { key := k2, value := v2 } := by
      simp only [node_create, if_true]
      rw [show ({ hm with count := hm.count + 1 } : Hashmap κ ν).fnAllocCopyKey =
        hm.fnAllocCopyKey from rfl]
      rw [show ({ hm with count := hm.count + 1 } : Hashmap κ ν).keySize =
        hm.keySize from rfl]
      rw [hkc]
      rw [show ({ hm with count := hm.count + 1 } : Hashmap κ ν).fnAllocCopyValue =
        hm.fnAllocCopyValue from rfl]
      rw [show ({ hm with count := hm.count + 1 } : Hashmap κ ν).valueSize =
        hm.valueSize from rfl]
      rw [hvc]
    have hres : hashmap_add false true hm k v =
        ({ { hm with count := hm.count + 1 } with
            table := prependAt hm.table (hm.fnHash k hm.keySize % hm.capacity)
              { key := k2, value := v2 } },
          some v2) := by
      simp only [hashmap_add]
      rw [hget, auto_grow_allocFail, hnode]
    have hlen : hm.fnHash k hm.keySize % hm.capacity < hm.table.length := by
      rw [hInv.1]
      exact Nat.mod_lt _ (Nat.lt_of_lt_of_le (by decide) hInv.2.1)
    refine ⟨by rw [hres], by rw [hres], by rw [hres], ?_⟩
    rw [hres]
    simp only [hashmap_get, bucket]
    rw [prependAt_getD_self hlen]
    simp only [List.find?]
    split
    case h_1 heq => rfl
    case h_2 heq =>
      exfalso
      simp only [keyMatch] at heq
      rw [hmatch] at heq
      cases heq
  · intro hc
    rcases chainRemoveFirst_isSome_of_contains hInv hEq hc with ⟨chain2, hrem⟩
    have hres : hashmap_remove false hm k =
        (auto_shrink false
          { hm with
              table := hm.table.set (hm.fnHash k hm.keySize % hm.capacity) chain2
              count := hm.count - 1 }, true) := by
      simp only [hashmap_remove]
      rw [hrem]
    rw [hres, auto_shrink_allocFail]
    exact ⟨rfl, rfl, rfl⟩

/-- C7 witness: on `natHm`, with the resize allocation failing, adding fresh
key 1 still succeeds under capacity 2, and removing key 0 still succeeds. -/
theorem claim_C7_witness :
    (∀ c, resize false natHm c = natHm) ∧
    (containsKey natHm 1 = false →
      (hashmap_add false true natHm 1 20).2 = some 20 ∧
      (hashmap_add false true natHm 1 20).1.capacity = natHm.capacity ∧
      (hashmap_add false true natHm 1 20).1.count = natHm.count + 1 ∧
      hashmap_get (hashmap_add false true natHm 1 20).1 1 = some 20) ∧
    (containsKey natHm 1 = true →
      (hashmap_remove false natHm 1).2 = true ∧
      (hashmap_remove false natHm 1).1.capacity = natHm.capacity ∧
      (hashmap_remove false natHm 1).1.count = natHm.count - 1) :=
  claim_C7_resize_alloc_failure 1 20 natHm_Inv natHm_EqOk rfl rfl (by decide)

/-- C8 counterexample: in the spec's concrete scenario (create with capacity
2, default thresholds, add 3 distinct keys, then remove 2), the capacity
after the 3rd add is 4 — not 3 as claimed — because the grow trigger already
fires on the 2nd add (load 2/2 > 0.75 → capacity 3) and again on the 3rd
(3/3 > 0.75 → 3 + 1 = 4); and after the two removals the capacity stays 4 —
not 2 — because the load 1/4 is not strictly below the 0.25 threshold. -/
theorem claim_C8_counterexample :
    c8_s3.1.capacity = 4 ∧ ¬ c8_s3.1.capacity = 3 ∧
    c8_r2.1.capacity = 4 ∧ ¬ c8_r2.1.capacity = 2 := by decide

/-- C8 amended: the scenario as the code actually runs it — capacity 2 after
the 1st add, 3 after the 2nd, 4 after the 3rd; all three keys gettable; both
removals succeed but trigger no shrink (1/4 is not < 0.25), leaving capacity
4 with the remaining key still gettable. -/
theorem claim_C8_amended_scenario :
    c8_m0.capacity = 2 ∧
    c8_s1.1.capacity = 2 ∧
    c8_s2.1.capacity = 3 ∧
    c8_s3.1.capacity = 4 ∧
    hashmap_get c8_s3.1 [1] = some [10] ∧
    hashmap_get c8_s3.1 [2] = some [11] ∧
    hashmap_get c8_s3.1 [3] = some [12] ∧
    c8_r1.2 = true ∧
    c8_r2.2 = true ∧
    c8_r2.1.capacity = 4 ∧
    c8_r2.1.count = 1 ∧
    hashmap_get c8_r2.1 [3] = some [12] := by decide

/-! ### djb2 (C9) -/

theorem djb2_loop_eq_takeWhile (l : List Nat) (h : Nat) :
    djb2_loop h l = (l.takeWhile (fun b => b != 0)).foldl djb2_step h := by
  induction l generalizing h with
  | nil => rfl
  | cons b rest ih =>
    rw [djb2_loop]
    rcases Decidable.em (b = 0) with hb | hb
    · subst hb
      rw [if_pos rfl]
      rfl
    · rw [if_neg hb]
      have hpred : (b != 0) = true := by simpa using hb
      simp only [List.takeWhile, hpred, List.foldl_cons]
      exact ih (djb2_step h b)

theorem djb2_step_eq_of_lt (h b : Nat) (hb : b < 128) :
    djb2_step h b = (h * 33 + b) % SIZE_T_MOD := by
  rw [djb2_step, charVal, if_pos hb]
  have h1 : (33 * (h : Int) + (b : Int)) = ((h * 33 + b : Nat) : Int) := by
    push_cast
    ring
  rw [h1, ← Int.natCast_mod, Int.toNat_natCast]

theorem foldl_djb2_step_eq (l : List Nat) (hl : ∀ b ∈ l, b < 128) :
    ∀ h, l.foldl djb2_step h = l.foldl (fun h b => (h * 33 + b) % SIZE_T_MOD) h := by
  induction l with
  | nil => intro h; rfl
  | cons b rest ih =>
    intro h
    rw [List.foldl_cons, List.foldl_cons,
      djb2_step_eq_of_lt h b (hl b (List.mem_cons_self b rest))]
    exact ih (fun x hx => hl x (List.mem_cons_of_mem b hx)) _

/-- C9 counterexample: the claim is false for fixed-width keys — djb2 never
processes all `key_size` bytes; it always stops at the first NUL byte
(`size` is explicitly unused).  On the 3-byte key `[1, 0, 2]` the
implementation hashes only the first byte, while the claimed all-bytes fold
yields a different value. -/
theorem claim_C9_counterexample :
    hashmap_fn_hash_djb2 [1, 0, 2] 3 ≠ djb2_spec_all_bytes [1, 0, 2] 3 := by decide

/-- C9 amended: djb2 starts from seed 5381 and folds
`hash = hash*33 + c mod 2^64` over the bytes strictly before the first NUL
byte, ignoring `key_size` entirely (for text and fixed-width keys alike);
`c` is the byte read as a signed char, which equals the byte for values
below 128, in which case the fold is exactly `hash*33 + byte`. -/
theorem claim_C9_amended_djb2 :
    (∀ key size, hashmap_fn_hash_djb2 key size =
      (key.takeWhile (fun b => b != 0)).foldl djb2_step 5381) ∧
    (∀ key size, (∀ b ∈ key, b < 128) →
      hashmap_fn_hash_djb2 key size =
        (key.takeWhile (fun b => b != 0)).foldl
          (fun h b => (h * 33 + b) % SIZE_T_MOD) 5381) := by
  constructor
  · intro key size
    exact djb2_loop_eq_takeWhile key 5381
  · intro key size hb
    rw [hashmap_fn_hash_djb2, djb2_loop_eq_takeWhile]
    exact foldl_djb2_step_eq _
      (fun b hbmem => hb b ((List.takeWhile_sublist _).subset hbmem)) 5381

/-- C9 witness: on the NUL-free ASCII key `[104, 105]` ("hi") the hash is the
plain `hash*33 + byte` fold. -/
theorem claim_C9_witness :
    (∀ b ∈ [104, 105], b < 128) ∧
    hashmap_fn_hash_djb2 [104, 105] 2 =
      ([104, 105].takeWhile (fun b => b != 0)).foldl
        (fun h b => (h * 33 + b) % SIZE_T_MOD) 5381 :=
  ⟨by decide, claim_C9_amended_djb2.2 [104, 105] 2 (by decide)⟩

/-! ### C2: copy semantics at memory level -/

theorem heap_write_contents_ne {h : Heap} {a : Nat} {buf : List Nat} {x : Nat}
    (hne : x ≠ a) : (heap_write h a buf).contents x = h.contents x := by
  show Function.update h.contents a buf x = h.contents x
  exact Function.update_noteq hne _ _

theorem prependAtH_getD_self {t : List (List NodeH)} {i : Nat}
    (hi : i < t.length) (n : NodeH) :
    (prependAtH t i n).getD i [] = n :: t.getD i [] := by
  simp [prependAtH, List.getD_eq_getElem?_getD, List.getElem?_set_self, hi,
    List.getElem?_eq_getElem hi]

theorem length_foldl_prependAtH (f : NodeH → Nat) (chain : List NodeH) :
    ∀ t : List (List NodeH),
      (chain.foldl (fun nt n => prependAtH nt (f n) n) t).length = t.length := by
  induction chain with
  | nil => intro t; rfl
  | cons n rest ih =>
    intro t
    rw [List.foldl_cons, ih]
    simp [prependAtH]

theorem length_outer_foldH (f : NodeH → Nat) (chains : List (List NodeH)) :
    ∀ t : List (List NodeH),
      (chains.foldl
        (fun nt chain => chain.foldl (fun nt n => prependAtH nt (f n) n) nt) t).length =
      t.length := by
  induction chains with
  | nil => intro t; rfl
  | cons c rest ih =>
    intro t
    rw [List.foldl_cons, ih, length_foldl_prependAtH]

theorem resizem_table_length (h : Heap) (hm : HashmapH) (c : Nat) :
    (resizem h hm c).table.length = (resizem h hm c).capacity := by
  simp only [resizem]
  exact (length_outer_foldH _ hm.table _).trans (List.length_replicate _ _)

/-- `auto_grow` at memory level preserves the strategy fields and sizes, and
keeps the table square (length = capacity) and the capacity positive. -/
theorem auto_growm_shape (h : Heap) (hm : HashmapH)
    (hlen : hm.table.length = hm.capacity) (hcap : 0 < hm.capacity) :
    (auto_growm h hm).table.length = (auto_growm h hm).capacity ∧
    0 < (auto_growm h hm).capacity ∧
    (auto_growm h hm).keySize = hm.keySize ∧
    (auto_growm h hm).valueSize = hm.valueSize ∧
    (auto_growm h hm).fnHash = hm.fnHash := by
  unfold auto_growm
  split
  · refine ⟨resizem_table_length h hm _, ?_, rfl, rfl, rfl⟩
    exact Nat.lt_of_lt_of_le (by decide)
      (clamp_ge_min (hm.capacity + hm.capacity / 2))
  · exact ⟨hlen, hcap, rfl, rfl, rfl⟩

/-- Prepending a node whose key buffer holds (the compared extent of)
`origK` makes any get with an equal query buffer return that node’s value
pointer: the fresh node sits at the head of the searched chain. -/
theorem getm_stable (hm1 hmR : HashmapH) (g : Heap) (origK : List Nat)
    (A B qA : Nat)
    (hR : hmR = { hm1 with
        table := prependAtH hm1.table
          (hm1.fnHash origK hm1.keySize % hm1.capacity)
          { keyA := A, valueA := B } })
    (hlen1 : hm1.table.length = hm1.capacity) (hcap1 : 0 < hm1.capacity)
    (hhash1 : ∀ b1 b2, b1.take hm1.keySize = b2.take hm1.keySize →
      hm1.fnHash b1 hm1.keySize = hm1.fnHash b2 hm1.keySize)
    (hgA : (g.contents A).take hm1.keySize = origK.take hm1.keySize)
    (hq : (g.contents qA).take hm1.keySize = origK.take hm1.keySize) :
    hashmap_getm g hmR qA = some B := by
  subst hR
  have hidx : hm1.fnHash (g.contents qA) hm1.keySize % hm1.capacity =
      hm1.fnHash origK hm1.keySize % hm1.capacity := by
    rw [hhash1 (g.contents qA) origK hq]
  have hlt : hm1.fnHash origK hm1.keySize % hm1.capacity < hm1.table.length := by
    rw [hlen1]
    exact Nat.mod_lt _ hcap1
  have hmemEq : memEq g qA A hm1.keySize = true := by
    rw [memEq, hq, hgA]
    exact beq_self_eq_true _
  simp only [hashmap_getm, bucketH]
  rw [hidx, prependAtH_getD_self hlt]
  simp only [List.find?]
  rw [hmemEq]
  rfl

/-- C2: a successful `add` stores fresh copies of the caller's key and value
buffers; the returned pointer is the fresh value copy holding exactly the
inserted bytes; an immediate `get` with the original key finds it; and after
arbitrary mutation of the caller's original key and value buffers, a `get`
with any query buffer equal (over the compared `key_size` extent) to the
*original* key still returns the stored copy, whose bytes still equal the
*original* inserted value. -/
theorem claim_C2_round_trip_copies {h : Heap} {hm : HashmapH} {keyA valueA : Nat}
    (hlen : hm.table.length = hm.capacity) (hcap : 0 < hm.capacity)
    (hkeyA : keyA < h.next) (hvalA : valueA < h.next)
    (hhash : ∀ b1 b2, b1.take hm.keySize = b2.take hm.keySize →
      hm.fnHash b1 hm.keySize = hm.fnHash b2 hm.keySize)
    (hget : hashmap_getm h hm keyA = none) :
    (hashmap_addm h hm keyA valueA).2.2 = some (h.next + 1) ∧
    (hashmap_addm h hm keyA valueA).1.contents (h.next + 1) =
      (h.contents valueA).take hm.valueSize ∧
    hashmap_getm (hashmap_addm h hm keyA valueA).1
      (hashmap_addm h hm keyA valueA).2.1 keyA = some (h.next + 1) ∧
    (∀ bufK bufV qA, ¬ qA = h.next → ¬ qA = h.next + 1 →
      ((heap_write (heap_write (hashmap_addm h hm keyA valueA).1 keyA bufK)
          valueA bufV).contents qA).take hm.keySize =
        (h.contents keyA).take hm.keySize →
      hashmap_getm
        (heap_write (heap_write (hashmap_addm h hm keyA valueA).1 keyA bufK)
          valueA bufV)
        (hashmap_addm h hm keyA valueA).2.1 qA = some (h.next + 1) ∧
      (heap_write (heap_write (hashmap_addm h hm keyA valueA).1 keyA bufK)
          valueA bufV).contents (h.next + 1) =
        (h.contents valueA).take hm.valueSize) := by
  have hkeyNe : keyA ≠ h.next := Nat.ne_of_lt hkeyA
  have hvalNe : valueA ≠ h.next := Nat.ne_of_lt hvalA
  have hkeyNe1 : keyA ≠ h.next + 1 := by omega
  have hvalNe1 : valueA ≠ h.next + 1 := by omega
  have hgrow := auto_growm_shape h { hm with count := hm.count + 1 } hlen hcap
  have hres : hashmap_addm h hm keyA valueA =
      ({ contents := Function.update
            (Function.update h.contents h.next
              ((h.contents keyA).take
                (auto_growm h { hm with count := hm.count + 1 }).keySize))
            (h.next + 1)
            ((h.contents valueA).take
              (auto_growm h { hm with count := hm.count + 1 }).valueSize)
         next := h.next + 1 + 1 },
       { auto_growm h { hm with count := hm.count + 1 } with
           table := prependAtH
             (auto_growm h { hm with count := hm.count + 1 }).table
             ((auto_growm h { hm with count := hm.count + 1 }).fnHash
                (h.contents keyA)
                (auto_growm h { hm with count := hm.count + 1 }).keySize %
              (auto_growm h { hm with count := hm.count + 1 }).capacity)
             { keyA := h.next, valueA := h.next + 1 } },
       some (h.next + 1)) := by
    simp only [hashmap_addm]
    rw [hget]
    simp only [node_createm, heap_alloc_copy]
    rw [Function.update_noteq hvalNe]
  have hks : (auto_growm h { hm with count := hm.count + 1 }).keySize = hm.keySize :=
    hgrow.2.2.1
  have hvs : (auto_growm h { hm with count := hm.count + 1 }).valueSize = hm.valueSize :=
    hgrow.2.2.2.1
  have hhash1 : ∀ b1 b2,
      b1.take (auto_growm h { hm with count := hm.count + 1 }).keySize =
        b2.take (auto_growm h { hm with count := hm.count + 1 }).keySize →
      (auto_growm h { hm with count := hm.count + 1 }).fnHash b1
          (auto_growm h { hm with count := hm.count + 1 }).keySize =
        (auto_growm h { hm with count := hm.count + 1 }).fnHash b2
          (auto_growm h { hm with count := hm.count + 1 }).keySize := by
    simp only [hks, hgrow.2.2.2.2]
    exact hhash
  refine ⟨by rw [hres], ?_, ?_, ?_⟩
  · rw [hres]
    dsimp only
    rw [Function.update_same, hvs]
  · rw [hres]
    refine getm_stable (auto_growm h { hm with count := hm.count + 1 }) _ _
      (h.contents keyA) h.next (h.next + 1) keyA rfl hgrow.1 hgrow.2.1 hhash1 ?_ ?_
    · dsimp only
      have hne : h.next ≠ h.next + 1 := by omega
      rw [Function.update_noteq hne, Function.update_same, List.take_take, Nat.min_self]
    · dsimp only
      rw [Function.update_noteq hkeyNe1, Function.update_noteq hkeyNe]
  · intro bufK bufV qA hq1 hq2 hq3
    rw [hres] at hq3 ⊢
    have hne1 : h.next ≠ valueA := Ne.symm hvalNe
    have hne2 : h.next ≠ keyA := Ne.symm hkeyNe
    have hne3 : h.next + 1 ≠ valueA := Ne.symm hvalNe1
    have hne4 : h.next + 1 ≠ keyA := Ne.symm hkeyNe1
    have hne : h.next ≠ h.next + 1 := by omega
    constructor
    · refine getm_stable (auto_growm h { hm with count := hm.count + 1 }) _ _
        (h.contents keyA) h.next (h.next + 1) qA rfl hgrow.1 hgrow.2.1 hhash1 ?_ ?_
      · rw [heap_write_contents_ne hne1, heap_write_contents_ne hne2]
        dsimp only
        rw [Function.update_noteq hne, Function.update_same, List.take_take, Nat.min_self]
      · simpa only [hks] using hq3
    · rw [heap_write_contents_ne hne3, heap_write_contents_ne hne4]
      dsimp only
      rw [Function.update_same, hvs]

/-- The first-byte hash of the concrete scenario respects the compared
1-byte extent. -/
theorem hmH0_hash_take : ∀ b1 b2 : List Nat,
    b1.take hmH0.keySize = b2.take hmH0.keySize →
    hmH0.fnHash b1 hmH0.keySize = hmH0.fnHash b2 hmH0.keySize := by
  intro b1 b2 hb
  show b1.headD 0 = b2.headD 0
  cases b1 with
  | nil =>
    cases b2 with
    | nil => rfl
    | cons b l2 => simp [hmH0, List.take] at hb
  | cons a l1 =>
    cases b2 with
    | nil => simp [hmH0, List.take] at hb
    | cons b l2 =>
      simp [hmH0, List.take] at hb
      simp [hb]

/-- C2 witness: in the concrete scenario (caller key `[7]` at address 0 and
value `[9]` at address 1, empty 2-bucket table), the add stores copies at the
fresh addresses, the round trip succeeds, and survives any mutation of the
caller's buffers. -/
theorem claim_C2_witness :
    (hashmap_addm heap0 hmH0 0 1).2.2 = some (heap0.next + 1) ∧
    (hashmap_addm heap0 hmH0 0 1).1.contents (heap0.next + 1) =
      (heap0.contents 1).take hmH0.valueSize ∧
    hashmap_getm (hashmap_addm heap0 hmH0 0 1).1 (hashmap_addm heap0 hmH0 0 1).2.1 0 =
      some (heap0.next + 1) ∧
    (∀ bufK bufV qA, ¬ qA = heap0.next → ¬ qA = heap0.next + 1 →
      ((heap_write (heap_write (hashmap_addm heap0 hmH0 0 1).1 0 bufK) 1 bufV).contents
          qA).take hmH0.keySize = (heap0.contents 0).take hmH0.keySize →
      hashmap_getm (heap_write (heap_write (hashmap_addm heap0 hmH0 0 1).1 0 bufK) 1 bufV)
        (hashmap_addm heap0 hmH0 0 1).2.1 qA = some (heap0.next + 1) ∧
      (heap_write (heap_write (hashmap_addm heap0 hmH0 0 1).1 0 bufK) 1 bufV).contents
        (heap0.next + 1) = (heap0.contents 1).take hmH0.valueSize) :=
  claim_C2_round_trip_copies rfl (by decide) (by decide) (by decide) hmH0_hash_take rfl

/-- C10: `create` with `initial_capacity = 0` substitutes the default
capacity 16 (it does not merely clamp to the minimal capacity 2), whatever
the hash strategy and key/value sizes. -/
theorem claim_C10_create_zero_capacity :
    ∀ hash_fn key_size value_size,
      (hashmap_create 0 hash_fn key_size value_size).capacity =
        HASHMAP_DEFAULT_CAPACITY ∧
      HASHMAP_DEFAULT_CAPACITY = 16 ∧
      ¬ (hashmap_create 0 hash_fn key_size value_size).capacity =
        HASHMAP_MINIMAL_CAPACITY := by
  intro hash_fn key_size value_size
  exact ⟨rfl, rfl, fun h => (by decide : ¬ (16 = 2)) h⟩

end CHashmap
